import Mathlib

/-!
Verification of the vertical-profile conservative resampling engine of the
emiproc repository (`emiproc/profiles/vertical_profiles.py`), shallowly
embedded over exact rationals.  Machine floats of the source are modelled by
`ℚ`; numpy arrays by lists (or index functions for the weight matrix); the
`assert`-based concatenation by an `Option` result.
-/

set_option maxHeartbeats 1600000

namespace Emiproc

/-- A single vertical profile: emission `ratios` per layer and the layer-top
`height` levels (layer `k` spans from the previous height, or `0`, up to
`height[k]`). Mirrors the dataclass `VerticalProfile`. -/
structure VerticalProfile where
  ratios : List ℚ
  height : List ℚ
deriving DecidableEq

/-- A batch of vertical profiles sharing one list of height levels: a
`(n_profiles, n_heights)` ratios array. Mirrors the dataclass
`VerticalProfiles`. -/
structure VerticalProfiles where
  ratios : List (List ℚ)
  height : List ℚ
deriving DecidableEq

def VerticalProfile.n_profiles (_ : VerticalProfile) : ℕ := 1

def VerticalProfiles.n_profiles (p : VerticalProfiles) : ℕ := p.ratios.length

/-- Deep copy (value semantics are the identity in the embedding). -/
def VerticalProfiles.copy (p : VerticalProfiles) : VerticalProfiles :=
  ⟨p.ratios, p.height⟩

/-- `VerticalProfiles.__add__`: concatenation of two batches.  The source
asserts that both batches carry the same height levels and then stacks the
ratios rows (left operand first); a failed assertion is modelled as `none`. -/
def VerticalProfiles.add (p q : VerticalProfiles) : Option VerticalProfiles :=
  if p.height = q.height then some ⟨p.ratios ++ q.ratios, p.height⟩ else none

/-- `VerticalProfiles.__getitem__`: extract one profile row as a view. -/
def VerticalProfiles.getProfile (p : VerticalProfiles) (index : ℕ) : VerticalProfile :=
  ⟨p.ratios.getD index [], p.height⟩

/-- A single profile seen as a one-row batch (the shape `row_stack` gives it
inside `resample_vertical_profiles`). -/
def VerticalProfile.toBatch (p : VerticalProfile) : VerticalProfiles :=
  ⟨[p.ratios], p.height⟩

/-- The source's strict-increase test `np.all(h[1:] > np.roll(h, 1)[1:])`:
every element with index `k ≥ 1` exceeds its predecessor. -/
def heightsIncreasing (h : List ℚ) : Bool :=
  (List.range h.length).all fun k => k == 0 || decide (h.getD (k - 1) 0 < h.getD k 0)

/-- `check_valid_vertical_profile` on a single profile: no-NaN holds by
construction over `ℚ`; the remaining asserts are positive heights, strictly
increasing heights, ratios summing to exactly `1`, matching lengths and
non-negative ratios.  `true` models the silent success of the checker. -/
def check_valid_vertical_profile (p : VerticalProfile) : Bool :=
  p.height.all (fun x => decide (0 < x)) &&
  heightsIncreasing p.height &&
  decide (p.ratios.sum = 1) &&
  decide (p.ratios.length = p.height.length) &&
  p.ratios.all (fun x => decide (0 ≤ x))

/-- `check_valid_vertical_profile` on a batch: each row sums to `1`
(`np.allclose` is exact over `ℚ`), the ratios array is rectangular with row
length `len(height)`, and all entries are non-negative. -/
def check_valid_vertical_profiles (p : VerticalProfiles) : Bool :=
  p.height.all (fun x => decide (0 < x)) &&
  heightsIncreasing p.height &&
  p.ratios.all (fun r => decide (r.sum = 1)) &&
  p.ratios.all (fun r => decide (r.length = p.height.length)) &&
  p.ratios.all (fun r => r.all fun x => decide (0 ≤ x))

/-- State of the two-cursor sweep in `get_weights_profiles_interpolation`:
cursors `i` (into `from_p`) and `j` (into `to_p`), the running position
`last`, and the `diff` matrix indexed `diff j i` as in the source. -/
structure WSt where
  i : ℕ
  j : ℕ
  last : ℚ
  diff : ℕ → ℕ → ℚ

/-- The main `while i < len(from_p) and j < len(to_p)` loop of
`get_weights_profiles_interpolation`, with explicit fuel (the loop advances
one cursor per iteration, so `len(from_p) + len(to_p)` fuel always reaches
the exit condition). -/
def mainLoop (fp tp : List ℚ) : ℕ → WSt → WSt
  | 0, s => s
  | fuel + 1, s =>
    if s.i < fp.length ∧ s.j < tp.length then
      let f := fp.getD s.i 0
      let t := tp.getD s.j 0
      if f ≤ t then
        mainLoop fp tp fuel
          ⟨s.i + 1, s.j, f,
            fun j' i' => if j' = s.j ∧ i' = s.i then f - s.last else s.diff j' i'⟩
      else
        mainLoop fp tp fuel
          ⟨s.i, s.j + 1, t,
            fun j' i' => if j' = s.j ∧ i' = s.i then t - s.last else s.diff j' i'⟩
    else s

/-- The trailing `while i < len(from_p)` loop guarded by `j == len(to_p)`:
remaining mass is accumulated (`+=`) into row `jl` (the source's `diff[-1]`). -/
def tailLoop (fp : List ℚ) (jl : ℕ) : ℕ → WSt → WSt
  | 0, s => s
  | fuel + 1, s =>
    if s.i < fp.length then
      let f := fp.getD s.i 0
      tailLoop fp jl fuel
        ⟨s.i + 1, s.j, f,
          fun j' i' => if j' = jl ∧ i' = s.i then s.diff j' i' + (f - s.last) else s.diff j' i'⟩
    else s

def initSt : WSt := ⟨0, 0, 0, fun _ _ => 0⟩

/-- State after the main sweep of `get_weights_profiles_interpolation`. -/
def loopResult (fp tp : List ℚ) : WSt :=
  mainLoop fp tp (fp.length + tp.length) initSt

/-- The raw (un-normalized) `diff` matrix of
`get_weights_profiles_interpolation`, after the conditional tail loop. -/
def rawDiff (fp tp : List ℚ) : ℕ → ℕ → ℚ :=
  let s := loopResult fp tp
  if s.j = tp.length then (tailLoop fp (tp.length - 1) fp.length s).diff else s.diff

/-- `get_weights_profiles_interpolation`: the raw overlap matrix divided
column-wise by its column sums (`diff / diff.sum(axis=0)`). -/
def get_weights_profiles_interpolation (fp tp : List ℚ) : ℕ → ℕ → ℚ := fun j i =>
  rawDiff fp tp j i / ∑ j' ∈ Finset.range tp.length, rawDiff fp tp j' i

/-- `np.unique` on the concatenated height lists: the sorted list of the
distinct values. -/
def npUnique (l : List ℚ) : List ℚ := l.toFinset.sort (· ≤ ·)

/-- One row of `p.ratios.dot(weights.T)`: entry `j` is `∑ i r i * w j i`
with `n` output rows and `m` input bins. -/
def applyWeights (n m : ℕ) (w : ℕ → ℕ → ℚ) (r : List ℚ) : List ℚ :=
  (List.range n).map fun j => ∑ i ∈ Finset.range m, r.getD i 0 * w j i

/-- `resample_vertical_profiles`: choose the unified levels (the supplied
ones, else `np.unique` of all input heights), remap every ratios row of every
input through the weight matrix, and stack all rows in input order. -/
def resample_vertical_profiles (profiles : List VerticalProfiles)
    (specified_levels : Option (List ℚ)) : VerticalProfiles :=
  let levels := match specified_levels with
    | none => npUnique (profiles.flatMap fun p => p.height)
    | some l => l
  { ratios :=
      profiles.flatMap fun p =>
        p.ratios.map (applyWeights levels.length p.height.length
          (get_weights_profiles_interpolation p.height levels))
    height := levels }

/-! ### Closed form of the raw overlap matrix -/

/-- Lower edge of layer `k` (`0` for the first layer). -/
def binLo (ls : List ℚ) (k : ℕ) : ℚ := if k = 0 then 0 else ls.getD (k - 1) 0

/-- Upper edge of layer `k`. -/
def binHi (ls : List ℚ) (k : ℕ) : ℚ := ls.getD k 0

/-- A value at least as large as every layer edge of either scale. -/
def topX (fp tp : List ℚ) : ℚ :=
  max (binHi fp (fp.length - 1)) (binHi tp (tp.length - 1))

/-- Upper edge of `to`-row `j`, with the outermost row extended upward (the
tail rule folds all remaining mass into the last row). -/
def binHiX (fp tp : List ℚ) (j : ℕ) : ℚ :=
  if j + 1 = tp.length then topX fp tp else binHi tp j

/-- Length of the overlap of the half-open intervals `(p, q]` and `(a, b]`. -/
def ov (p q a b : ℚ) : ℚ := max 0 (min q b - max p a)

/-- Closed form of the raw matrix: cell `(j, i)` is the overlap of `to`-row
`j` (last row extended upward) with `from`-bin `i`. -/
def closedDiff (fp tp : List ℚ) (j i : ℕ) : ℚ :=
  ov (binLo tp j) (binHiX fp tp j) (binLo fp i) (binHi fp i)

/-- Plain (unextended) overlap of `to`-row `j` with `from`-bin `i`. -/
def ovP (fp tp : List ℚ) (j i : ℕ) : ℚ :=
  ov (binLo tp j) (binHi tp j) (binLo fp i) (binHi fp i)

/-- Validity of a height-level list as the spec's `HeightLevels`: non-empty,
positive, strictly increasing. -/
def ValidLevels (l : List ℚ) : Prop :=
  l ≠ [] ∧ (∀ x ∈ l, 0 < x) ∧ l.Chain' (· < ·)

/-- Clamp of `x` into the interval from `a` to `max a b`. -/
def clampf (a b x : ℚ) : ℚ := min (max a b) (max a x)

/-- Invariant of the two-cursor sweep: cursors in bounds, `last` sits at the
larger of the two lower edges under the cursors, every settled cell holds the
plain overlap of its row and column intervals, unvisited cells are `0`, and
the running position relations that make the branch arithmetic work. -/
def Inv (fp tp : List ℚ) (s : WSt) : Prop :=
  s.i ≤ fp.length ∧ s.j ≤ tp.length ∧
  s.last = max (binLo fp s.i) (binLo tp s.j) ∧
  (∀ j' i', j' < tp.length → i' < fp.length → (j' < s.j ∨ i' < s.i) →
    s.diff j' i' = ovP fp tp j' i') ∧
  (∀ j' i', tp.length ≤ j' ∨ fp.length ≤ i' ∨ (s.j ≤ j' ∧ s.i ≤ i') → s.diff j' i' = 0) ∧
  (s.j < tp.length → binLo fp s.i ≤ binHi tp s.j) ∧
  (s.i < fp.length → binLo tp s.j ≤ binHi fp s.i) ∧
  (s.j = tp.length → binLo fp s.i ≤ binLo tp tp.length) ∧
  (s.i = fp.length → s.j < tp.length → binHi fp (fp.length - 1) ≤ binHi tp s.j)

/-- The boundaries of the `to`-rows seen as a partition: lower edges,
capped by the extended top. -/
def toBoundary (fp tp : List ℚ) (j : ℕ) : ℚ :=
  if j < tp.length then binLo tp j else topX fp tp

/-- The spec-level invariants of a single profile. -/
def ValidProfileP (p : VerticalProfile) : Prop :=
  (∀ x ∈ p.height, 0 < x) ∧ p.height.Chain' (· < ·) ∧ p.ratios.sum = 1 ∧
  p.ratios.length = p.height.length ∧ ∀ x ∈ p.ratios, 0 ≤ x

/-- The spec-level invariants of a profile batch. -/
def ValidProfilesP (p : VerticalProfiles) : Prop :=
  (∀ x ∈ p.height, 0 < x) ∧ p.height.Chain' (· < ·) ∧ (∀ r ∈ p.ratios, r.sum = 1) ∧
  (∀ r ∈ p.ratios, r.length = p.height.length) ∧ ∀ r ∈ p.ratios, ∀ x ∈ r, 0 ≤ x

/-- Partition boundaries of a scale `B`: lower edges, capped by its own top. -/
def binBoundary (B : List ℚ) (k : ℕ) : ℚ :=
  if k < B.length then binLo B k else binHi B (B.length - 1)

/-! ### Basic facts about layer edges -/

lemma getD_lt_getD {l : List ℚ} (hl : l.Chain' (· < ·)) {a b : ℕ} (hab : a < b)
    (hb : b < l.length) : l.getD a 0 < l.getD b 0 := by
  have hp := List.chain'_iff_pairwise.mp hl
  rw [List.pairwise_iff_getElem] at hp
  have ha : a < l.length := lt_trans hab hb
  rw [List.getD_eq_getElem l 0 ha, List.getD_eq_getElem l 0 hb]
  exact hp a b ha hb hab

lemma getD_le_getD {l : List ℚ} (hl : l.Chain' (· < ·)) {a b : ℕ} (hab : a ≤ b)
    (hb : b < l.length) : l.getD a 0 ≤ l.getD b 0 := by
  rcases eq_or_lt_of_le hab with h | h
  · rw [h]
  · exact le_of_lt (getD_lt_getD hl h hb)

lemma getD_pos {l : List ℚ} (hp : ∀ x ∈ l, 0 < x) {a : ℕ} (ha : a < l.length) :
    0 < l.getD a 0 := by
  rw [List.getD_eq_getElem l 0 ha]
  exact hp _ (List.getElem_mem ha)

lemma getD_nonneg {l : List ℚ} (hp : ∀ x ∈ l, 0 < x) (a : ℕ) : 0 ≤ l.getD a 0 := by
  rcases lt_or_ge a l.length with h | h
  · exact le_of_lt (getD_pos hp h)
  · rw [List.getD_eq_default l 0 h]

lemma binLo_zero (l : List ℚ) : binLo l 0 = 0 := rfl

lemma binLo_succ (l : List ℚ) (k : ℕ) : binLo l (k + 1) = binHi l k := by
  simp [binLo, binHi]

lemma binLo_nonneg {l : List ℚ} (hp : ∀ x ∈ l, 0 < x) (k : ℕ) : 0 ≤ binLo l k := by
  unfold binLo
  split
  · exact le_refl 0
  · exact getD_nonneg hp _

lemma binHi_nonneg {l : List ℚ} (hp : ∀ x ∈ l, 0 < x) (k : ℕ) : 0 ≤ binHi l k :=
  getD_nonneg hp k

lemma binLo_lt_binHi {l : List ℚ} (hl : l.Chain' (· < ·)) (hp : ∀ x ∈ l, 0 < x)
    {k : ℕ} (hk : k < l.length) : binLo l k < binHi l k := by
  unfold binLo binHi
  split
  · exact getD_pos hp hk
  · exact getD_lt_getD hl (by omega) hk

lemma binHi_mono {l : List ℚ} (hl : l.Chain' (· < ·)) {a b : ℕ} (hab : a ≤ b)
    (hb : b < l.length) : binHi l a ≤ binHi l b :=
  getD_le_getD hl hab hb

lemma binLo_mono {l : List ℚ} (hl : l.Chain' (· < ·)) (hp : ∀ x ∈ l, 0 < x)
    {a b : ℕ} (hab : a ≤ b) (hb : b ≤ l.length) : binLo l a ≤ binLo l b := by
  unfold binLo
  split
  · split
    · exact le_refl 0
    · exact getD_nonneg hp _
  · split
    · omega
    · exact getD_le_getD hl (by omega) (by omega)

lemma binHi_le_last {l : List ℚ} (hl : l.Chain' (· < ·)) {k : ℕ} (hk : k < l.length) :
    binHi l k ≤ binHi l (l.length - 1) :=
  getD_le_getD hl (by omega) (by omega)

/-! ### Overlap-length algebra -/

lemma ov_nonneg (p q a b : ℚ) : 0 ≤ ov p q a b := le_max_left 0 _

lemma ov_eq_zero {p q a b : ℚ} (h : min q b ≤ max p a) : ov p q a b = 0 :=
  max_eq_left (by linarith)

lemma ov_eq_of_le {p q a b : ℚ} (h : max p a ≤ min q b) : ov p q a b = min q b - max p a :=
  max_eq_right (by linarith)

lemma ov_eq_clamp {p q : ℚ} (hpq : p ≤ q) (a b : ℚ) :
    ov p q a b = clampf a b q - clampf a b p := by
  unfold ov clampf
  rcases le_total a b with hab | hab <;>
    rcases le_total q b with hqb | hqb <;>
    rcases le_total p a with hpa | hpa <;>
    rcases le_total q a with hqa | hqa <;>
    rcases le_total p b with hpb | hpb <;>
    simp only [min_def, max_def] <;> split_ifs <;> linarith

/-- Telescoping of adjacent overlap lengths: intersecting `(a, b]` with the
cells of a monotone partition `c 0 ≤ c 1 ≤ …` sums to the intersection with
the whole range `(c 0, c n]`. -/
lemma sum_ov_telescope (c : ℕ → ℚ) (n : ℕ) (hc : ∀ k, k < n → c k ≤ c (k + 1)) (a b : ℚ) :
    ∑ j ∈ Finset.range n, ov (c j) (c (j + 1)) a b = ov (c 0) (c n) a b := by
  have h0n : c 0 ≤ c n := by
    have : ∀ k, k ≤ n → c 0 ≤ c k := by
      intro k
      induction k with
      | zero => intro _; exact le_refl _
      | succ k ih => intro hk; exact le_trans (ih (by omega)) (hc k (by omega))
    exact this n (le_refl n)
  calc ∑ j ∈ Finset.range n, ov (c j) (c (j + 1)) a b
      = ∑ j ∈ Finset.range n, (clampf a b (c (j + 1)) - clampf a b (c j)) := by
        refine Finset.sum_congr rfl fun j hj => ?_
        exact ov_eq_clamp (hc j (Finset.mem_range.mp hj)) a b
    _ = clampf a b (c n) - clampf a b (c 0) :=
        Finset.sum_range_sub (fun k => clampf a b (c k)) n
    _ = ov (c 0) (c n) a b := (ov_eq_clamp h0n a b).symm

/-! ### The sweep invariant -/

lemma inv_init (fp tp : List ℚ) (hfpos : ∀ x ∈ fp, 0 < x) (htpos : ∀ x ∈ tp, 0 < x) :
    Inv fp tp initSt := by
  unfold Inv initSt
  dsimp only
  refine ⟨Nat.zero_le _, Nat.zero_le _, ?_, ?_, ?_, ?_, ?_, ?_, ?_⟩
  · rw [binLo_zero, binLo_zero]; simp
  · intro j' i' _ _ h; omega
  · intro j' i' _; rfl
  · intro _; rw [binLo_zero]; exact binHi_nonneg htpos _
  · intro _; rw [binLo_zero]; exact binHi_nonneg hfpos _
  · intro _; rw [binLo_zero]; exact binLo_nonneg htpos _
  · intro h _
    unfold binHi
    rw [List.getD_eq_default _ _ (by omega)]
    exact getD_nonneg htpos _

lemma inv_stepF (fp tp : List ℚ) (hf : fp.Chain' (· < ·)) (ht : tp.Chain' (· < ·))
    (hfpos : ∀ x ∈ fp, 0 < x) (htpos : ∀ x ∈ tp, 0 < x) (s : WSt)
    (hs : Inv fp tp s) (hi : s.i < fp.length) (hj : s.j < tp.length)
    (hft : fp.getD s.i 0 ≤ tp.getD s.j 0) :
    Inv fp tp ⟨s.i + 1, s.j, fp.getD s.i 0,
      fun j' i' => if j' = s.j ∧ i' = s.i then fp.getD s.i 0 - s.last else s.diff j' i'⟩ := by
  obtain ⟨h1, h2, h3, h4, h5, h6, h7, h8, h9⟩ := hs
  have hfI : fp.getD s.i 0 = binHi fp s.i := rfl
  have htJ : tp.getD s.j 0 = binHi tp s.j := rfl
  have hlast_le : s.last ≤ binHi fp s.i := by
    rw [h3]
    exact max_le (le_of_lt (binLo_lt_binHi hf hfpos hi)) (h7 hi)
  unfold Inv
  dsimp only
  refine ⟨by omega, h2, ?_, ?_, ?_, ?_, ?_, ?_, ?_⟩
  · rw [binLo_succ]
    exact hfI.trans (max_eq_left (h7 hi)).symm
  · intro j' i' hj' hi' hcase
    by_cases hcell : j' = s.j ∧ i' = s.i
    · obtain ⟨hcj, hci⟩ := hcell
      subst hcj; subst hci
      have hcond : s.j = s.j ∧ s.i = s.i := ⟨rfl, rfl⟩
      have hmin : min (binHi tp s.j) (binHi fp s.i) = binHi fp s.i :=
        min_eq_right (by rw [← hfI, ← htJ]; exact hft)
      have hmax : max (binLo tp s.j) (binLo fp s.i) = s.last := by
        rw [h3, max_comm]
      have hval : ovP fp tp s.j s.i = binHi fp s.i - s.last := by
        unfold ovP
        rw [ov_eq_of_le (by rw [hmin, hmax]; exact hlast_le), hmin, hmax]
      rw [if_pos hcond, hval, hfI]
    · rw [if_neg hcell]
      rcases hcase with hlt | hlt
      · exact h4 j' i' hj' hi' (Or.inl hlt)
      · rcases Nat.lt_succ_iff_lt_or_eq.mp hlt with hlt' | heq
        · exact h4 j' i' hj' hi' (Or.inr hlt')
        · subst heq
          rcases Nat.lt_or_ge j' s.j with hjlt | hjge
          · exact h4 j' s.i hj' hi' (Or.inl hjlt)
          · have hjgt : s.j < j' := by
              rcases Nat.eq_or_lt_of_le hjge with h | h
              · exact absurd ⟨h.symm, rfl⟩ hcell
              · exact h
            rw [h5 j' s.i (Or.inr (Or.inr ⟨le_of_lt hjgt, le_refl _⟩))]
            unfold ovP
            rw [eq_comm]
            rw [ov_eq_zero]
            have hlo : binHi fp s.i ≤ binLo tp j' := by
              have hj1 : j' - 1 + 1 = j' := by omega
              rw [← hj1, binLo_succ]
              calc binHi fp s.i ≤ binHi tp s.j := by rw [← hfI, ← htJ]; exact hft
                _ ≤ binHi tp (j' - 1) := binHi_mono ht (by omega) (by omega)
            calc min (binHi tp j') (binHi fp s.i) ≤ binHi fp s.i := min_le_right _ _
              _ ≤ binLo tp j' := hlo
              _ ≤ max (binLo tp j') (binLo fp s.i) := le_max_left _ _
  · intro j' i' hcase
    have hne : ¬(j' = s.j ∧ i' = s.i) := by
      rintro ⟨hc, hc'⟩
      rcases hcase with h | h | h
      · omega
      · omega
      · omega
    rw [if_neg hne]
    refine h5 j' i' ?_
    rcases hcase with h | h | h
    · exact Or.inl h
    · exact Or.inr (Or.inl h)
    · exact Or.inr (Or.inr ⟨h.1, by omega⟩)
  · intro _
    rw [binLo_succ, ← hfI, ← htJ]
    exact hft
  · intro hi1
    calc binLo tp s.j ≤ binHi fp s.i := h7 hi
      _ ≤ binHi fp (s.i + 1) := le_of_lt (getD_lt_getD hf (by omega) hi1)
  · intro hcontra
    omega
  · intro him _
    have hlen : fp.length - 1 = s.i := by omega
    rw [hlen, ← hfI, ← htJ]
    exact hft

lemma inv_stepT (fp tp : List ℚ) (hf : fp.Chain' (· < ·)) (ht : tp.Chain' (· < ·))
    (hfpos : ∀ x ∈ fp, 0 < x) (htpos : ∀ x ∈ tp, 0 < x) (s : WSt)
    (hs : Inv fp tp s) (hi : s.i < fp.length) (hj : s.j < tp.length)
    (hft : ¬fp.getD s.i 0 ≤ tp.getD s.j 0) :
    Inv fp tp ⟨s.i, s.j + 1, tp.getD s.j 0,
      fun j' i' => if j' = s.j ∧ i' = s.i then tp.getD s.j 0 - s.last else s.diff j' i'⟩ := by
  obtain ⟨h1, h2, h3, h4, h5, h6, h7, h8, h9⟩ := hs
  have hfI : fp.getD s.i 0 = binHi fp s.i := rfl
  have htJ : tp.getD s.j 0 = binHi tp s.j := rfl
  have htf : binHi tp s.j < binHi fp s.i := by
    rw [← hfI, ← htJ]; exact lt_of_not_le hft
  have hlast_le : s.last ≤ binHi tp s.j := by
    rw [h3]
    exact max_le (h6 hj) (le_of_lt (binLo_lt_binHi ht htpos hj))
  unfold Inv
  dsimp only
  refine ⟨h1, by omega, ?_, ?_, ?_, ?_, ?_, ?_, ?_⟩
  · rw [binLo_succ]
    exact htJ.trans (max_eq_right (h6 hj)).symm
  · intro j' i' hj' hi' hcase
    by_cases hcell : j' = s.j ∧ i' = s.i
    · obtain ⟨hcj, hci⟩ := hcell
      subst hcj; subst hci
      have hcond : s.j = s.j ∧ s.i = s.i := ⟨rfl, rfl⟩
      have hmin : min (binHi tp s.j) (binHi fp s.i) = binHi tp s.j :=
        min_eq_left (le_of_lt htf)
      have hmax : max (binLo tp s.j) (binLo fp s.i) = s.last := by
        rw [h3, max_comm]
      have hval : ovP fp tp s.j s.i = binHi tp s.j - s.last := by
        unfold ovP
        rw [ov_eq_of_le (by rw [hmin, hmax]; exact hlast_le), hmin, hmax]
      rw [if_pos hcond, hval, htJ]
    · rw [if_neg hcell]
      rcases hcase with hlt | hlt
      · rcases Nat.lt_succ_iff_lt_or_eq.mp hlt with hlt' | heq
        · exact h4 j' i' hj' hi' (Or.inl hlt')
        · subst heq
          rcases Nat.lt_or_ge i' s.i with hilt | hige
          · exact h4 s.j i' hj' hi' (Or.inr hilt)
          · have higt : s.i < i' := by
              rcases Nat.eq_or_lt_of_le hige with h | h
              · exact absurd ⟨rfl, h.symm⟩ hcell
              · exact h
            rw [h5 s.j i' (Or.inr (Or.inr ⟨le_refl _, le_of_lt higt⟩))]
            unfold ovP
            rw [eq_comm]
            rw [ov_eq_zero]
            have hlo : binHi tp s.j ≤ binLo fp i' := by
              have hi1 : i' - 1 + 1 = i' := by omega
              rw [← hi1, binLo_succ]
              calc binHi tp s.j ≤ binHi fp s.i := le_of_lt htf
                _ ≤ binHi fp (i' - 1) := binHi_mono hf (by omega) (by omega)
            calc min (binHi tp s.j) (binHi fp i') ≤ binHi tp s.j := min_le_left _ _
              _ ≤ binLo fp i' := hlo
              _ ≤ max (binLo tp s.j) (binLo fp i') := le_max_right _ _
      · exact h4 j' i' hj' hi' (Or.inr hlt)
  · intro j' i' hcase
    have hne : ¬(j' = s.j ∧ i' = s.i) := by
      rintro ⟨hc, hc'⟩
      rcases hcase with h | h | h
      · omega
      · omega
      · omega
    rw [if_neg hne]
    refine h5 j' i' ?_
    rcases hcase with h | h | h
    · exact Or.inl h
    · exact Or.inr (Or.inl h)
    · exact Or.inr (Or.inr ⟨by omega, h.2⟩)
  · intro hj1
    calc binLo fp s.i ≤ binHi tp s.j := h6 hj
      _ ≤ binHi tp (s.j + 1) := le_of_lt (getD_lt_getD ht (by omega) hj1)
  · intro _
    rw [binLo_succ, ← htJ]
    exact le_of_lt htf
  · intro hjn
    have hlen : tp.length - 1 + 1 = tp.length := by omega
    rw [← hlen, binLo_succ]
    have hlen' : tp.length - 1 = s.j := by omega
    rw [hlen']
    exact h6 hj
  · intro hcontra
    omega

lemma mainLoop_invariant (fp tp : List ℚ) (hf : fp.Chain' (· < ·)) (ht : tp.Chain' (· < ·))
    (hfpos : ∀ x ∈ fp, 0 < x) (htpos : ∀ x ∈ tp, 0 < x) :
    ∀ fuel (s : WSt), Inv fp tp s → (fp.length - s.i) + (tp.length - s.j) ≤ fuel →
      Inv fp tp (mainLoop fp tp fuel s) ∧
      (fp.length ≤ (mainLoop fp tp fuel s).i ∨ tp.length ≤ (mainLoop fp tp fuel s).j) := by
  intro fuel
  induction fuel with
  | zero =>
    intro s hs hm
    have h1 := hs.1
    have h2 := hs.2.1
    simp only [mainLoop]
    exact ⟨hs, by omega⟩
  | succ fuel ih =>
    intro s hs hm
    simp only [mainLoop]
    split
    case isTrue h =>
      obtain ⟨hi, hj⟩ := h
      split
      case isTrue hft =>
        refine ih _ (inv_stepF fp tp hf ht hfpos htpos s hs hi hj hft) ?_
        dsimp only
        omega
      case isFalse hft =>
        refine ih _ (inv_stepT fp tp hf ht hfpos htpos s hs hi hj hft) ?_
        dsimp only
        omega
    case isFalse h =>
      exact ⟨hs, by omega⟩

lemma loopResult_spec (fp tp : List ℚ) (hf : fp.Chain' (· < ·)) (ht : tp.Chain' (· < ·))
    (hfpos : ∀ x ∈ fp, 0 < x) (htpos : ∀ x ∈ tp, 0 < x) :
    Inv fp tp (loopResult fp tp) ∧
      (fp.length ≤ (loopResult fp tp).i ∨ tp.length ≤ (loopResult fp tp).j) :=
  mainLoop_invariant fp tp hf ht hfpos htpos (fp.length + tp.length) initSt
    (inv_init fp tp hfpos htpos) (by simp [initSt])

lemma tailLoop_spec (fp : List ℚ) (hf : fp.Chain' (· < ·)) (hfpos : ∀ x ∈ fp, 0 < x)
    (jl : ℕ) :
    ∀ fuel (s : WSt), fp.length - s.i ≤ fuel → binLo fp s.i ≤ s.last →
      (s.i < fp.length → s.last ≤ binHi fp s.i) →
      ∀ j' i', (tailLoop fp jl fuel s).diff j' i' =
        if j' = jl ∧ s.i ≤ i' ∧ i' < fp.length
        then s.diff j' i' + (binHi fp i' - max (binLo fp i') s.last)
        else s.diff j' i' := by
  intro fuel
  induction fuel with
  | zero =>
    intro s hm hlo hhi j' i'
    simp only [tailLoop]
    rw [if_neg]
    rintro ⟨_, h2, h3⟩
    omega
  | succ fuel ih =>
    intro s hm hlo hhi j' i'
    simp only [tailLoop]
    split
    case isTrue hi =>
      have hfI : fp.getD s.i 0 = binHi fp s.i := rfl
      have H := ih ⟨s.i + 1, s.j, fp.getD s.i 0,
          fun j'' i'' => if j'' = jl ∧ i'' = s.i then s.diff j'' i'' + (fp.getD s.i 0 - s.last)
            else s.diff j'' i''⟩
        (by dsimp only; omega)
        (by dsimp only; rw [binLo_succ]; exact le_of_eq hfI)
        (by dsimp only; intro hi1; exact le_of_lt (getD_lt_getD hf (by omega) hi1))
        j' i'
      dsimp only at H
      rw [H]
      by_cases hA : j' = jl ∧ s.i + 1 ≤ i' ∧ i' < fp.length
      · obtain ⟨hA1, hA2, hA3⟩ := hA
        rw [if_pos ⟨hA1, hA2, hA3⟩,
          if_neg (show ¬(j' = jl ∧ i' = s.i) by rintro ⟨_, hc⟩; omega),
          if_pos ⟨hA1, (show s.i ≤ i' by omega), hA3⟩]
        have hstep : binHi fp s.i ≤ binLo fp i' := by
          rw [← binLo_succ]
          exact binLo_mono hf hfpos hA2 (by omega)
        have e1 : max (binLo fp i') (fp.getD s.i 0) = binLo fp i' :=
          max_eq_left (by rw [hfI]; exact hstep)
        have e2 : max (binLo fp i') s.last = binLo fp i' :=
          max_eq_left (le_trans (hhi hi) hstep)
        rw [e1, e2]
      · rw [if_neg hA]
        by_cases hB : j' = jl ∧ i' = s.i
        · obtain ⟨hB1, hB2⟩ := hB
          rw [if_pos ⟨hB1, hB2⟩,
            if_pos ⟨hB1, (show s.i ≤ i' by omega), (show i' < fp.length by omega)⟩]
          subst hB2
          rw [max_eq_right hlo, hfI]
        · rw [if_neg hB,
            if_neg (show ¬(j' = jl ∧ s.i ≤ i' ∧ i' < fp.length) by
              rintro ⟨hC1, hC2, hC3⟩
              rcases Nat.lt_or_ge i' (s.i + 1) with hlt | hge
              · exact hB ⟨hC1, by omega⟩
              · exact hA ⟨hC1, hge, hC3⟩)]
    case isFalse hi =>
      rw [if_neg]
      rintro ⟨_, h2, h3⟩
      omega

/-- Extending the top edge of a row does not change its overlap with a bin
that ends below the original top edge. -/
lemma ov_top_irrel {L q q' a b : ℚ} (h : b ≤ q) (h' : b ≤ q') :
    ov L q a b = ov L q' a b := by
  unfold ov
  rw [min_eq_right h, min_eq_right h']

/-- Folding the mass of a bin lying above edge `T` into a row capped at `T`
yields the overlap with the row extended upward. -/
lemma ov_tail_add {L2 T a b top : ℚ} (hL2T : L2 ≤ T) (hTb : T ≤ b) (hab : a < b)
    (hbtop : b ≤ top) :
    ov L2 T a b + (b - max a T) = ov L2 top a b := by
  unfold ov
  rw [min_eq_left hTb, min_eq_right hbtop]
  simp only [max_def]
  split_ifs <;> linarith

/-- Closed form of the raw overlap matrix: in range, cell `(j, i)` is exactly
the overlap of `to`-row `j` (outermost row extended upward) with
`from`-bin `i`. -/
lemma rawDiff_eq_closed (fp tp : List ℚ) (hf : fp.Chain' (· < ·)) (ht : tp.Chain' (· < ·))
    (hfpos : ∀ x ∈ fp, 0 < x) (htpos : ∀ x ∈ tp, 0 < x) :
    ∀ j i, j < tp.length → i < fp.length → rawDiff fp tp j i = closedDiff fp tp j i := by
  intro j i hj hi
  obtain ⟨hinv, hexit⟩ := loopResult_spec fp tp hf ht hfpos htpos
  obtain ⟨h1, h2, h3, h4, h5, h6, h7, h8, h9⟩ := hinv
  unfold rawDiff
  by_cases hcase : (loopResult fp tp).j = tp.length
  · -- the tail loop ran: `j` reached `n`
    rw [if_pos hcase]
    have hn1 : 1 ≤ tp.length := by omega
    have hT : binLo tp tp.length = binHi tp (tp.length - 1) := by
      unfold binLo binHi
      rw [if_neg (by omega)]
    have hlast : (loopResult fp tp).last = binLo tp tp.length := by
      rw [h3, hcase]
      exact max_eq_right (h8 hcase)
    have H := tailLoop_spec fp hf hfpos (tp.length - 1) fp.length (loopResult fp tp)
      (by omega)
      (by rw [h3]; exact le_max_left _ _)
      (fun hsi => by
        rw [h3, hcase]
        exact max_le (le_of_lt (binLo_lt_binHi hf hfpos hsi)) (by rw [← hcase]; exact h7 hsi))
      j i
    rw [H]
    have hdiff : (loopResult fp tp).diff j i = ovP fp tp j i :=
      h4 j i hj hi (Or.inl (by omega))
    by_cases hjn : j = tp.length - 1
    · subst hjn
      by_cases hcol : (loopResult fp tp).i ≤ i
      · -- a remaining column: the tail loop added the mass above the last edge
        rw [if_pos ⟨rfl, hcol, hi⟩, hdiff, hlast]
        have hsim : (loopResult fp tp).i < fp.length := by omega
        have hTb : binLo tp tp.length ≤ binHi fp i := by
          rw [← hcase]
          exact le_trans (h7 hsim) (binHi_mono hf hcol hi)
        have hL2T : binLo tp (tp.length - 1) < binLo tp tp.length := by
          rw [hT]
          exact binLo_lt_binHi ht htpos (by omega)
        have hab : binLo fp i < binHi fp i := binLo_lt_binHi hf hfpos hi
        have hbtop : binHi fp i ≤ topX fp tp :=
          le_trans (binHi_le_last hf hi) (le_max_left _ _)
        have hgoal : closedDiff fp tp (tp.length - 1) i
            = ov (binLo tp (tp.length - 1)) (topX fp tp) (binLo fp i) (binHi fp i) := by
          unfold closedDiff binHiX
          rw [if_pos (by omega)]
        rw [hgoal, hT]
        exact ov_tail_add (le_of_lt (by rw [← hT]; exact hL2T)) (by rw [← hT]; exact hTb)
          hab hbtop
      · -- a column settled before the sweep ended: no extension is visible
        rw [if_neg (by rintro ⟨_, hc, _⟩; omega), hdiff]
        have hble : binHi fp i ≤ binHi tp (tp.length - 1) := by
          rw [← hT, ← binLo_succ]
          exact le_trans (binLo_mono hf hfpos (by omega) (by omega)) (h8 hcase)
        have hgoal : closedDiff fp tp (tp.length - 1) i
            = ov (binLo tp (tp.length - 1)) (topX fp tp) (binLo fp i) (binHi fp i) := by
          unfold closedDiff binHiX
          rw [if_pos (by omega)]
        rw [hgoal]
        exact ov_top_irrel hble (le_trans hble
          (le_trans (binHi_le_last ht (by omega)) (le_max_right _ _)))
    · -- a row below the outermost one is never extended
      rw [if_neg (by rintro ⟨hc, _, _⟩; omega), hdiff]
      unfold ovP closedDiff binHiX
      rw [if_neg (by omega)]
  · -- the sweep ended with the `from` cursor exhausted
    rw [if_neg hcase]
    have him : (loopResult fp tp).i = fp.length := by
      rcases hexit with h | h
      · omega
      · exact absurd (by omega : (loopResult fp tp).j = tp.length) hcase
    have hjlt : (loopResult fp tp).j < tp.length := by omega
    rw [h4 j i hj hi (Or.inr (by omega))]
    unfold ovP closedDiff binHiX
    by_cases hj1 : j + 1 = tp.length
    · have htopeq : topX fp tp = binHi tp (tp.length - 1) := by
        unfold topX
        exact max_eq_right (le_trans (h9 him hjlt) (binHi_mono ht (by omega) (by omega)))
      rw [if_pos hj1, htopeq]
      have hje : j = tp.length - 1 := by omega
      rw [hje]
    · rw [if_neg hj1]

/-! ### Column sums of the raw matrix and of the weight matrix -/

lemma sum_closedDiff_col (fp tp : List ℚ) (hf : fp.Chain' (· < ·)) (ht : tp.Chain' (· < ·))
    (hfpos : ∀ x ∈ fp, 0 < x) (htpos : ∀ x ∈ tp, 0 < x) (hn : tp ≠ [])
    {i : ℕ} (hi : i < fp.length) :
    ∑ j ∈ Finset.range tp.length, closedDiff fp tp j i = binHi fp i - binLo fp i := by
  have hn0 : 0 < tp.length := List.length_pos.mpr hn
  have heq : ∀ j ∈ Finset.range tp.length, closedDiff fp tp j i
      = ov (toBoundary fp tp j) (toBoundary fp tp (j + 1)) (binLo fp i) (binHi fp i) := by
    intro j hj
    rw [Finset.mem_range] at hj
    unfold closedDiff binHiX toBoundary
    by_cases hj1 : j + 1 = tp.length
    · rw [if_pos hj1, if_pos hj, if_neg (by omega)]
    · rw [if_neg hj1, if_pos hj, if_pos (by omega), binLo_succ]
  have hmono : ∀ k, k < tp.length → toBoundary fp tp k ≤ toBoundary fp tp (k + 1) := by
    intro k hk
    unfold toBoundary
    by_cases hk1 : k + 1 < tp.length
    · rw [if_pos hk, if_pos hk1]
      exact binLo_mono ht htpos (by omega) (by omega)
    · rw [if_pos hk, if_neg hk1]
      calc binLo tp k ≤ binHi tp k := le_of_lt (binLo_lt_binHi ht htpos hk)
        _ ≤ binHi tp (tp.length - 1) := binHi_le_last ht hk
        _ ≤ topX fp tp := le_max_right _ _
  rw [Finset.sum_congr rfl heq, sum_ov_telescope _ _ hmono]
  have h0 : toBoundary fp tp 0 = 0 := by
    unfold toBoundary
    rw [if_pos hn0, binLo_zero]
  have hN : toBoundary fp tp tp.length = topX fp tp := by
    unfold toBoundary
    rw [if_neg (by omega)]
  rw [h0, hN]
  have htop : binHi fp i ≤ topX fp tp := le_trans (binHi_le_last hf hi) (le_max_left _ _)
  unfold ov
  rw [min_eq_right htop, max_eq_right (binLo_nonneg hfpos i)]
  exact max_eq_right (sub_nonneg.mpr (le_of_lt (binLo_lt_binHi hf hfpos hi)))

lemma sum_rawDiff_col (fp tp : List ℚ) (hf : fp.Chain' (· < ·)) (ht : tp.Chain' (· < ·))
    (hfpos : ∀ x ∈ fp, 0 < x) (htpos : ∀ x ∈ tp, 0 < x) (hn : tp ≠ [])
    {i : ℕ} (hi : i < fp.length) :
    ∑ j ∈ Finset.range tp.length, rawDiff fp tp j i = binHi fp i - binLo fp i := by
  rw [Finset.sum_congr rfl (fun j hj =>
    rawDiff_eq_closed fp tp hf ht hfpos htpos j i (Finset.mem_range.mp hj) hi)]
  exact sum_closedDiff_col fp tp hf ht hfpos htpos hn hi

lemma rawDiff_nonneg (fp tp : List ℚ) (hf : fp.Chain' (· < ·)) (ht : tp.Chain' (· < ·))
    (hfpos : ∀ x ∈ fp, 0 < x) (htpos : ∀ x ∈ tp, 0 < x)
    {j i : ℕ} (hj : j < tp.length) (hi : i < fp.length) :
    0 ≤ rawDiff fp tp j i := by
  rw [rawDiff_eq_closed fp tp hf ht hfpos htpos j i hj hi]
  exact ov_nonneg _ _ _ _

lemma col_width_pos (fp : List ℚ) (hf : fp.Chain' (· < ·)) (hfpos : ∀ x ∈ fp, 0 < x)
    {i : ℕ} (hi : i < fp.length) : 0 < binHi fp i - binLo fp i :=
  sub_pos.mpr (binLo_lt_binHi hf hfpos hi)

lemma weights_col_sum (fp tp : List ℚ) (hf : fp.Chain' (· < ·)) (ht : tp.Chain' (· < ·))
    (hfpos : ∀ x ∈ fp, 0 < x) (htpos : ∀ x ∈ tp, 0 < x) (hn : tp ≠ [])
    {i : ℕ} (hi : i < fp.length) :
    ∑ j ∈ Finset.range tp.length, get_weights_profiles_interpolation fp tp j i = 1 := by
  unfold get_weights_profiles_interpolation
  rw [← Finset.sum_div, sum_rawDiff_col fp tp hf ht hfpos htpos hn hi]
  exact div_self (ne_of_gt (col_width_pos fp hf hfpos hi))

lemma weights_nonneg (fp tp : List ℚ) (hf : fp.Chain' (· < ·)) (ht : tp.Chain' (· < ·))
    (hfpos : ∀ x ∈ fp, 0 < x) (htpos : ∀ x ∈ tp, 0 < x) (hn : tp ≠ [])
    {j i : ℕ} (hj : j < tp.length) (hi : i < fp.length) :
    0 ≤ get_weights_profiles_interpolation fp tp j i := by
  unfold get_weights_profiles_interpolation
  apply div_nonneg (rawDiff_nonneg fp tp hf ht hfpos htpos hj hi)
  rw [sum_rawDiff_col fp tp hf ht hfpos htpos hn hi]
  exact le_of_lt (col_width_pos fp hf hfpos hi)

/-! ### List sums versus indexed sums -/

lemma list_sum_map_range (f : ℕ → ℚ) (n : ℕ) :
    ((List.range n).map f).sum = ∑ j ∈ Finset.range n, f j := by
  induction n with
  | zero => simp
  | succ n ih =>
    rw [List.range_succ, List.map_append, List.sum_append, Finset.sum_range_succ, ih]
    simp

lemma list_sum_eq_getD (r : List ℚ) : r.sum = ∑ i ∈ Finset.range r.length, r.getD i 0 := by
  induction r with
  | nil => simp
  | cons a l ih =>
    rw [List.sum_cons, List.length_cons, Finset.sum_range_succ']
    simp only [List.getD_cons_succ, List.getD_cons_zero]
    rw [← ih]
    ring

/-- Mass conservation for one remapped row: the output row sums to the input
row's sum whenever the weight matrix is column-normalized. -/
lemma applyWeights_sum (n m : ℕ) (w : ℕ → ℕ → ℚ) (r : List ℚ) (hr : r.length = m)
    (hcol : ∀ i, i < m → ∑ j ∈ Finset.range n, w j i = 1) :
    (applyWeights n m w r).sum = r.sum := by
  unfold applyWeights
  rw [list_sum_map_range, Finset.sum_comm]
  rw [list_sum_eq_getD, hr]
  refine Finset.sum_congr rfl fun i hi => ?_
  rw [← Finset.mul_sum, hcol i (Finset.mem_range.mp hi), mul_one]

/-! ### The validator versus the spec-level invariants -/

lemma chain'_iff_adj {l : List ℚ} :
    l.Chain' (· < ·) ↔ ∀ k, 0 < k → k < l.length → l.getD (k - 1) 0 < l.getD k 0 := by
  rw [List.chain'_iff_get]
  constructor
  · intro hc k hk0 hk
    have h2 := hc (k - 1) (by omega)
    rw [List.getD_eq_getElem l 0 (show k - 1 < l.length by omega), List.getD_eq_getElem l 0 hk]
    simp only [List.get_eq_getElem] at h2
    simp only [show k - 1 + 1 = k from by omega] at h2
    exact h2
  · intro hadj i hi1
    have h2 := hadj (i + 1) (by omega) (by omega)
    rw [List.getD_eq_getElem l 0 (show i + 1 - 1 < l.length by omega),
        List.getD_eq_getElem l 0 (by omega)] at h2
    simp only [List.get_eq_getElem]
    simp only [show i + 1 - 1 = i from by omega] at h2
    exact h2

lemma heightsIncreasing_iff {h : List ℚ} :
    heightsIncreasing h = true ↔ h.Chain' (· < ·) := by
  unfold heightsIncreasing
  rw [List.all_eq_true, chain'_iff_adj]
  constructor
  · intro hall k hk0 hk
    have := hall k (by rwa [List.mem_range])
    simp only [beq_iff_eq, Bool.or_eq_true, decide_eq_true_eq] at this
    rcases this with hc | hc
    · omega
    · exact hc
  · intro hadj k hk
    rw [List.mem_range] at hk
    simp only [beq_iff_eq, Bool.or_eq_true, decide_eq_true_eq]
    rcases Nat.eq_zero_or_pos k with h0 | h0
    · exact Or.inl h0
    · exact Or.inr (hadj k h0 hk)

lemma check_valid_iff {p : VerticalProfile} :
    check_valid_vertical_profile p = true ↔ ValidProfileP p := by
  unfold check_valid_vertical_profile ValidProfileP
  simp only [Bool.and_eq_true, List.all_eq_true, decide_eq_true_eq, heightsIncreasing_iff,
    and_assoc]

lemma check_valids_iff {p : VerticalProfiles} :
    check_valid_vertical_profiles p = true ↔ ValidProfilesP p := by
  unfold check_valid_vertical_profiles ValidProfilesP
  simp only [Bool.and_eq_true, List.all_eq_true, decide_eq_true_eq, heightsIncreasing_iff,
    and_assoc]

/-- A valid profile has a non-empty ratio list (its entries sum to `1`) and
hence non-empty heights. -/
lemma valid_profile_ne_nil {p : VerticalProfile} (hp : ValidProfileP p) :
    p.ratios ≠ [] ∧ p.height ≠ [] := by
  obtain ⟨_, _, hsum, hlen, _⟩ := hp
  have hr : p.ratios ≠ [] := by
    intro hnil
    rw [hnil] at hsum
    simp at hsum
  refine ⟨hr, ?_⟩
  intro hnil
  rw [hnil] at hlen
  simp at hlen
  exact hr hlen

/-! ### `np.unique` facts -/

lemma npUnique_chain (l : List ℚ) : (npUnique l).Chain' (· < ·) :=
  List.chain'_iff_pairwise.mpr (Finset.sort_sorted_lt _)

lemma npUnique_mem {l : List ℚ} {x : ℚ} : x ∈ npUnique l ↔ x ∈ l := by
  unfold npUnique
  rw [Finset.mem_sort, List.mem_toFinset]

/-! ### Rows of the resampled batch -/

lemma getD_nonneg_of_all {r : List ℚ} (h : ∀ x ∈ r, 0 ≤ x) (i : ℕ) : 0 ≤ r.getD i 0 := by
  rcases lt_or_ge i r.length with hlt | hge
  · rw [List.getD_eq_getElem r 0 hlt]
    exact h _ (List.getElem_mem hlt)
  · rw [List.getD_eq_default r 0 hge]

lemma applyWeights_length (n m : ℕ) (w : ℕ → ℕ → ℚ) (r : List ℚ) :
    (applyWeights n m w r).length = n := by
  unfold applyWeights
  rw [List.length_map, List.length_range]

lemma applyWeights_getD (n m : ℕ) (w : ℕ → ℕ → ℚ) (r : List ℚ) {j : ℕ} (hj : j < n) :
    (applyWeights n m w r).getD j 0 = ∑ i ∈ Finset.range m, r.getD i 0 * w j i := by
  unfold applyWeights
  rw [List.getD_eq_getElem _ 0 (by rw [List.length_map, List.length_range]; exact hj)]
  simp

lemma applyWeights_mem_nonneg (n m : ℕ) (w : ℕ → ℕ → ℚ) (r : List ℚ)
    (hr : ∀ x ∈ r, 0 ≤ x) (hw : ∀ j i, j < n → i < m → 0 ≤ w j i) :
    ∀ x ∈ applyWeights n m w r, 0 ≤ x := by
  intro x hx
  unfold applyWeights at hx
  rw [List.mem_map] at hx
  obtain ⟨j, hj, rfl⟩ := hx
  rw [List.mem_range] at hj
  refine Finset.sum_nonneg fun i hi => ?_
  exact mul_nonneg (getD_nonneg_of_all hr i) (hw j i hj (Finset.mem_range.mp hi))

lemma map_getD_range (r : List ℚ) :
    (List.range r.length).map (fun j => r.getD j 0) = r := by
  apply List.ext_getElem
  · rw [List.length_map, List.length_range]
  · intro i h1 h2
    rw [List.getElem_map, List.getElem_range]
    exact List.getD_eq_getElem r 0 h2

/-- Validity of a resampled batch on given unified levels. -/
lemma resample_valid_core (profiles : List VerticalProfiles) (levels : List ℚ)
    (hv : ∀ p ∈ profiles, ValidProfilesP p)
    (hlc : levels.Chain' (· < ·)) (hlp : ∀ x ∈ levels, 0 < x)
    (hne : ∀ p ∈ profiles, p.ratios ≠ [] → levels ≠ []) :
    ValidProfilesP
      ⟨profiles.flatMap fun p =>
          p.ratios.map (applyWeights levels.length p.height.length
            (get_weights_profiles_interpolation p.height levels)),
        levels⟩ := by
  have main : ∀ row ∈ (profiles.flatMap fun p =>
      p.ratios.map (applyWeights levels.length p.height.length
        (get_weights_profiles_interpolation p.height levels))),
      row.sum = 1 ∧ row.length = levels.length ∧ ∀ x ∈ row, 0 ≤ x := by
    intro row hrow
    rw [List.mem_flatMap] at hrow
    obtain ⟨p, hp, hrow⟩ := hrow
    rw [List.mem_map] at hrow
    obtain ⟨r, hr, rfl⟩ := hrow
    obtain ⟨hppos, hpchain, hsum, hlen, hnn⟩ := hv p hp
    have hrsum := hsum r hr
    have hrlen := hlen r hr
    have hrne : r ≠ [] := by
      intro h0
      rw [h0] at hrsum
      simp at hrsum
    have hhne : p.height ≠ [] := by
      intro h0
      rw [h0] at hrlen
      simp at hrlen
      exact hrne hrlen
    have hlne : levels ≠ [] := hne p hp (List.ne_nil_of_mem hr)
    refine ⟨?_, applyWeights_length _ _ _ _, ?_⟩
    · rw [applyWeights_sum _ _ _ r hrlen (fun i hi =>
        weights_col_sum p.height levels hpchain hlc hppos hlp hlne hi), hrsum]
    · exact applyWeights_mem_nonneg _ _ _ r (hnn r hr) (fun j i hj hi =>
        weights_nonneg p.height levels hpchain hlc hppos hlp hlne hj hi)
  exact ⟨hlp, hlc, fun row hrow => (main row hrow).1, fun row hrow => (main row hrow).2.1,
    fun row hrow => (main row hrow).2.2⟩

/-- Validity of `resample_vertical_profiles` output. -/
lemma resample_valid (profiles : List VerticalProfiles) (specified : Option (List ℚ))
    (hv : ∀ p ∈ profiles, ValidProfilesP p)
    (hs : ∀ l, specified = some l → ValidLevels l) :
    ValidProfilesP (resample_vertical_profiles profiles specified) := by
  cases specified with
  | some l =>
    obtain ⟨hlne, hlp, hlc⟩ := hs l rfl
    exact resample_valid_core profiles l hv hlc hlp (fun p hp _ => hlne)
  | none =>
    have hlc := npUnique_chain (profiles.flatMap fun p => p.height)
    have hlp : ∀ x ∈ npUnique (profiles.flatMap fun p => p.height), 0 < x := by
      intro x hx
      rw [npUnique_mem, List.mem_flatMap] at hx
      obtain ⟨p, hp, hxp⟩ := hx
      exact (hv p hp).1 x hxp
    have hne : ∀ p ∈ profiles, p.ratios ≠ [] →
        npUnique (profiles.flatMap fun p => p.height) ≠ [] := by
      intro p hp hrne
      obtain ⟨r, hr⟩ := List.exists_mem_of_ne_nil _ hrne
      have hrlen := (hv p hp).2.2.2.1 r hr
      have hrsum := (hv p hp).2.2.1 r hr
      have hrne' : r ≠ [] := by
        intro h0
        rw [h0] at hrsum
        simp at hrsum
      have hhne : p.height ≠ [] := by
        intro h0
        rw [h0] at hrlen
        simp at hrlen
        exact hrne' hrlen
      obtain ⟨x, hx⟩ := List.exists_mem_of_ne_nil _ hhne
      refine List.ne_nil_of_mem (a := x) ?_
      rw [npUnique_mem, List.mem_flatMap]
      exact ⟨p, hp, hx⟩
    exact resample_valid_core profiles _ hv hlc hlp hne

/-- Resampling a scale onto itself produces the identity weight matrix. -/
lemma weights_self (ls : List ℚ) (hl : ls.Chain' (· < ·)) (hp : ∀ x ∈ ls, 0 < x)
    {j i : ℕ} (hj : j < ls.length) (hi : i < ls.length) :
    get_weights_profiles_interpolation ls ls j i = if j = i then 1 else 0 := by
  have hne : ls ≠ [] := by
    intro h0
    rw [h0] at hj
    simp at hj
  have hclosed := rawDiff_eq_closed ls ls hl hl hp hp j i hj hi
  unfold get_weights_profiles_interpolation
  rw [sum_rawDiff_col ls ls hl hl hp hp hne hi, hclosed]
  by_cases hji : j = i
  · subst hji
    have hup : binHi ls j ≤ binHiX ls ls j := by
      unfold binHiX topX
      split
      · rw [max_self]
        exact binHi_le_last hl hj
      · exact le_refl _
    have hd : closedDiff ls ls j j = binHi ls j - binLo ls j := by
      unfold closedDiff ov
      rw [min_eq_right hup, max_self]
      exact max_eq_right (sub_nonneg.mpr (le_of_lt (binLo_lt_binHi hl hp hj)))
    rw [hd, if_pos rfl]
    exact div_self (ne_of_gt (col_width_pos ls hl hp hj))
  · rw [if_neg hji]
    have hd : closedDiff ls ls j i = 0 := by
      unfold closedDiff
      rcases Nat.lt_or_ge j i with hlt | hge
      · have hupper : binHiX ls ls j = binHi ls j := by
          unfold binHiX
          rw [if_neg (by omega)]
        rw [hupper]
        apply ov_eq_zero
        have hstep : binHi ls j ≤ binLo ls i := by
          rw [show i = (i - 1) + 1 from by omega, binLo_succ]
          exact binHi_mono hl (by omega) (by omega)
        calc min (binHi ls j) (binHi ls i) ≤ binHi ls j := min_le_left _ _
          _ ≤ binLo ls i := hstep
          _ ≤ max (binLo ls j) (binLo ls i) := le_max_right _ _
      · have hij : i < j := by omega
        apply ov_eq_zero
        have hstep : binHi ls i ≤ binLo ls j := by
          rw [show j = (j - 1) + 1 from by omega, binLo_succ]
          exact binHi_mono hl (by omega) (by omega)
        calc min (binHiX ls ls j) (binHi ls i) ≤ binHi ls i := min_le_right _ _
          _ ≤ binLo ls j := hstep
          _ ≤ max (binLo ls j) (binLo ls i) := le_max_left _ _
    rw [hd]
    exact zero_div _

/-- Applying an identity weight matrix returns the row unchanged. -/
lemma applyWeights_delta (r : List ℚ) (n : ℕ) (hr : r.length = n) (w : ℕ → ℕ → ℚ)
    (hw : ∀ j i, j < n → i < n → w j i = if j = i then 1 else 0) :
    applyWeights n n w r = r := by
  unfold applyWeights
  have hcong : ∀ j ∈ List.range n,
      (∑ i ∈ Finset.range n, r.getD i 0 * w j i) = r.getD j 0 := by
    intro j hj
    rw [List.mem_range] at hj
    have hterm : ∀ i ∈ Finset.range n, r.getD i 0 * w j i
        = if i = j then r.getD i 0 else 0 := by
      intro i hi
      rw [Finset.mem_range] at hi
      rw [hw j i hj hi]
      by_cases hij : j = i
      · rw [if_pos hij, if_pos hij.symm, mul_one]
      · rw [if_neg hij, if_neg (fun h => hij h.symm), mul_zero]
    rw [Finset.sum_congr rfl hterm,
      Finset.sum_ite_eq' (Finset.range n) j (fun i => r.getD i 0),
      if_pos (Finset.mem_range.mpr hj)]
  rw [List.map_congr_left hcong]
  subst hr
  exact map_getD_range r

/-! ### Round trip through a refining scale -/

lemma mem_le_last {l : List ℚ} (hl : l.Chain' (· < ·)) {x : ℚ} (hx : x ∈ l) :
    x ≤ binHi l (l.length - 1) := by
  obtain ⟨s, hs, hsx⟩ := List.getElem_of_mem hx
  rw [← hsx, show l[s] = l.getD s 0 from (List.getD_eq_getElem l 0 hs).symm]
  exact getD_le_getD hl (by omega) (by omega)

lemma last_mem {l : List ℚ} (hne : l ≠ []) : binHi l (l.length - 1) ∈ l := by
  have hlen : 0 < l.length := List.length_pos.mpr hne
  unfold binHi
  rw [List.getD_eq_getElem l 0 (by omega)]
  exact List.getElem_mem _

/-- No element of a sorted scale lies strictly inside one of its own bins. -/
lemma edge_not_inside {B : List ℚ} (hB : B.Chain' (· < ·)) (hBpos : ∀ x ∈ B, 0 < x)
    {x : ℚ} (hx : x = 0 ∨ x ∈ B) {k : ℕ} (hk : k < B.length) :
    x ≤ binLo B k ∨ binHi B k ≤ x := by
  rcases hx with rfl | hx
  · exact Or.inl (binLo_nonneg hBpos k)
  · obtain ⟨s, hs, hsx⟩ := List.getElem_of_mem hx
    have hxd : x = B.getD s 0 := by
      rw [List.getD_eq_getElem B 0 hs, hsx]
    rcases Nat.lt_or_ge s k with hlt | hge
    · left
      rw [hxd]
      unfold binLo
      rw [if_neg (by omega)]
      exact getD_le_getD hB (by omega) (by omega)
    · right
      rw [hxd]
      exact getD_le_getD hB hge hs

/-- Key factorization: if neither `La` nor `Ra` lies strictly inside the bin
`(lk, hk]`, then distributing the bin's overlap with `(La, Ra]` onto `(Li, Hi]`
is the triple overlap. -/
lemma ov_prod_factor {La Ra lk hk Li Hi : ℚ} (hlh : lk < hk)
    (h1 : La ≤ lk ∨ hk ≤ La) (h2 : Ra ≤ lk ∨ hk ≤ Ra) :
    ov La Ra lk hk * ov lk hk Li Hi / (hk - lk) = ov lk hk (max La Li) (min Ra Hi) := by
  rcases h2 with h2 | h2
  · have hz1 : ov La Ra lk hk = 0 := ov_eq_zero (by
      calc min Ra hk ≤ Ra := min_le_left _ _
        _ ≤ lk := h2
        _ ≤ max La lk := le_max_right _ _)
    have hz2 : ov lk hk (max La Li) (min Ra Hi) = 0 := ov_eq_zero (by
      calc min hk (min Ra Hi) ≤ min Ra Hi := min_le_right _ _
        _ ≤ Ra := min_le_left _ _
        _ ≤ lk := h2
        _ ≤ max lk (max La Li) := le_max_left _ _)
    rw [hz1, hz2, zero_mul, zero_div]
  · rcases h1 with h1 | h1
    · have hov : ov La Ra lk hk = hk - lk := by
        unfold ov
        rw [min_eq_right h2, max_eq_right h1]
        exact max_eq_right (by linarith)
      rw [hov, mul_comm, mul_div_assoc, div_self (ne_of_gt (by linarith)), mul_one]
      unfold ov
      have e1 : min hk (min Ra Hi) = min hk Hi := by
        rw [← min_assoc, min_eq_left h2]
      have e2 : max lk (max La Li) = max lk Li := by
        rw [← max_assoc, max_eq_left h1]
      rw [e1, e2]
    · have hz1 : ov La Ra lk hk = 0 := ov_eq_zero (by
        calc min Ra hk ≤ hk := min_le_right _ _
          _ ≤ La := h1
          _ ≤ max La lk := le_max_left _ _)
      have hz2 : ov lk hk (max La Li) (min Ra Hi) = 0 := ov_eq_zero (by
        calc min hk (min Ra Hi) ≤ hk := min_le_left _ _
          _ ≤ La := h1
          _ ≤ max La Li := le_max_left _ _
          _ ≤ max lk (max La Li) := le_max_right _ _)
      rw [hz1, hz2, zero_mul, zero_div]

/-- Composing the weight matrices `B → A` and `A → B`, for `B` a refinement
of `A`, gives the identity. -/
lemma weights_comp_delta (A B : List ℚ)
    (hA : A.Chain' (· < ·)) (hApos : ∀ x ∈ A, 0 < x)
    (hB : B.Chain' (· < ·)) (hBpos : ∀ x ∈ B, 0 < x)
    (hAB : ∀ x ∈ A, x ∈ B) (hAne : A ≠ [])
    {a i : ℕ} (ha : a < A.length) (hi : i < A.length) :
    ∑ k ∈ Finset.range B.length,
      get_weights_profiles_interpolation B A a k * get_weights_profiles_interpolation A B k i
      = if a = i then 1 else 0 := by
  have hBne : B ≠ [] := by
    obtain ⟨x, hx⟩ := List.exists_mem_of_ne_nil _ hAne
    exact List.ne_nil_of_mem (hAB x hx)
  have hmaxAB : binHi A (A.length - 1) ≤ binHi B (B.length - 1) :=
    mem_le_last hB (hAB _ (last_mem hAne))
  have hW2 : ∀ k, k < B.length → get_weights_profiles_interpolation B A a k
      = ov (binLo A a) (binHiX B A a) (binLo B k) (binHi B k)
        / (binHi B k - binLo B k) := by
    intro k hk
    unfold get_weights_profiles_interpolation
    rw [sum_rawDiff_col B A hB hA hBpos hApos hAne hk,
        rawDiff_eq_closed B A hB hA hBpos hApos a k ha hk]
    rfl
  have hW1 : ∀ k, k < B.length → get_weights_profiles_interpolation A B k i
      = ov (binLo B k) (binHi B k) (binLo A i) (binHi A i)
        / (binHi A i - binLo A i) := by
    intro k hk
    unfold get_weights_profiles_interpolation
    rw [sum_rawDiff_col A B hA hB hApos hBpos hBne hi,
        rawDiff_eq_closed A B hA hB hApos hBpos k i hk hi]
    congr 1
    unfold closedDiff binHiX
    by_cases hk1 : k + 1 = B.length
    · rw [if_pos hk1]
      have htop : topX A B = binHi B k := by
        unfold topX
        rw [max_eq_right hmaxAB]
        congr 1
        omega
      rw [htop]
    · rw [if_neg hk1]
  have hterm : ∀ k ∈ Finset.range B.length,
      get_weights_profiles_interpolation B A a k * get_weights_profiles_interpolation A B k i
      = ov (binLo B k) (binHi B k)
          (max (binLo A a) (binLo A i)) (min (binHiX B A a) (binHi A i))
          / (binHi A i - binLo A i) := by
    intro k hk
    rw [Finset.mem_range] at hk
    rw [hW2 k hk, hW1 k hk]
    have hlh : binLo B k < binHi B k := binLo_lt_binHi hB hBpos hk
    have hLa : binLo A a ≤ binLo B k ∨ binHi B k ≤ binLo A a := by
      apply edge_not_inside hB hBpos _ hk
      unfold binLo
      by_cases ha0 : a = 0
      · rw [if_pos ha0]
        exact Or.inl rfl
      · rw [if_neg ha0]
        right
        apply hAB
        rw [List.getD_eq_getElem A 0 (by omega)]
        exact List.getElem_mem _
    have hRa : binHiX B A a ≤ binLo B k ∨ binHi B k ≤ binHiX B A a := by
      apply edge_not_inside hB hBpos _ hk
      right
      unfold binHiX
      by_cases ha1 : a + 1 = A.length
      · rw [if_pos ha1]
        unfold topX
        rw [max_eq_left hmaxAB]
        exact last_mem hBne
      · rw [if_neg ha1]
        apply hAB
        unfold binHi
        rw [List.getD_eq_getElem A 0 (by omega)]
        exact List.getElem_mem _
    rw [div_mul_div_comm, ← div_div, ov_prod_factor hlh hLa hRa]
  rw [Finset.sum_congr rfl hterm, ← Finset.sum_div]
  have hbeq : ∀ k ∈ Finset.range B.length,
      ov (binLo B k) (binHi B k)
        (max (binLo A a) (binLo A i)) (min (binHiX B A a) (binHi A i))
      = ov (binBoundary B k) (binBoundary B (k + 1))
        (max (binLo A a) (binLo A i)) (min (binHiX B A a) (binHi A i)) := by
    intro k hk
    rw [Finset.mem_range] at hk
    unfold binBoundary
    rw [if_pos hk]
    by_cases hk1 : k + 1 < B.length
    · rw [if_pos hk1, binLo_succ]
    · rw [if_neg hk1]
      have he : B.length - 1 = k := by omega
      rw [he]
  have hmono : ∀ k, k < B.length → binBoundary B k ≤ binBoundary B (k + 1) := by
    intro k hk
    unfold binBoundary
    by_cases hk1 : k + 1 < B.length
    · rw [if_pos hk, if_pos hk1]
      exact binLo_mono hB hBpos (by omega) (by omega)
    · rw [if_pos hk, if_neg hk1]
      have he : B.length - 1 = k := by omega
      rw [he]
      exact le_of_lt (binLo_lt_binHi hB hBpos hk)
  rw [Finset.sum_congr rfl hbeq, sum_ov_telescope _ _ hmono]
  have hB0 : 0 < B.length := List.length_pos.mpr hBne
  have hc0 : binBoundary B 0 = 0 := by
    unfold binBoundary
    rw [if_pos hB0, binLo_zero]
  have hcN : binBoundary B B.length = binHi B (B.length - 1) := by
    unfold binBoundary
    rw [if_neg (by omega)]
  rw [hc0, hcN]
  have ha'0 : 0 ≤ max (binLo A a) (binLo A i) :=
    le_trans (binLo_nonneg hApos a) (le_max_left _ _)
  have hb'top : min (binHiX B A a) (binHi A i) ≤ binHi B (B.length - 1) :=
    le_trans (min_le_right _ _) (le_trans (binHi_le_last hA hi) hmaxAB)
  unfold ov
  rw [min_eq_right hb'top, max_eq_right ha'0]
  by_cases hai : a = i
  · subst hai
    rw [if_pos rfl, max_self]
    have hup : binHi A a ≤ binHiX B A a := by
      unfold binHiX
      split
      · exact le_trans (binHi_le_last hA ha) (le_max_right _ _)
      · exact le_refl _
    rw [min_eq_right hup,
      max_eq_right (sub_nonneg.mpr (le_of_lt (binLo_lt_binHi hA hApos ha)))]
    exact div_self (ne_of_gt (col_width_pos A hA hApos ha))
  · rw [if_neg hai]
    have hzero : min (binHiX B A a) (binHi A i) - max (binLo A a) (binLo A i) ≤ 0 := by
      rcases Nat.lt_or_ge a i with hlt | hge
      · have hRa : binHiX B A a = binHi A a := by
          unfold binHiX
          rw [if_neg (by omega)]
        have hle : binHi A a ≤ binLo A i := by
          rw [show i = (i - 1) + 1 from by omega, binLo_succ]
          exact binHi_mono hA (by omega) (by omega)
        calc min (binHiX B A a) (binHi A i) - max (binLo A a) (binLo A i)
            ≤ binHiX B A a - binLo A i := by
              have := min_le_left (binHiX B A a) (binHi A i)
              have := le_max_right (binLo A a) (binLo A i)
              linarith
          _ ≤ 0 := by rw [hRa]; linarith
      · have hia : i < a := by omega
        have hle : binHi A i ≤ binLo A a := by
          rw [show a = (a - 1) + 1 from by omega, binLo_succ]
          exact binHi_mono hA (by omega) (by omega)
        calc min (binHiX B A a) (binHi A i) - max (binLo A a) (binLo A i)
            ≤ binHi A i - binLo A a := by
              have := min_le_right (binHiX B A a) (binHi A i)
              have := le_max_left (binLo A a) (binLo A i)
              linarith
          _ ≤ 0 := by linarith
    rw [max_eq_left hzero, zero_div]

/-! ### The claims -/

/-- C1: for every valid profile `p` and every valid non-empty target level set
`L`, the single output row of `resample_vertical_profiles(p,
specified_levels := L)` sums to exactly `1` (mass conservation), whatever the
relative position of the outermost edges of the two scales. -/
theorem resample_conserves_mass (p : VerticalProfile) (L : List ℚ)
    (hp : check_valid_vertical_profile p = true) (hL : ValidLevels L) :
    ∃ row, (resample_vertical_profiles [p.toBatch] (some L)).ratios = [row]
      ∧ row.sum = 1 := by
  obtain ⟨hpos, hchain, hsum, hlen, hnn⟩ := check_valid_iff.mp hp
  obtain ⟨hLne, hLpos, hLchain⟩ := hL
  refine ⟨applyWeights L.length p.height.length
    (get_weights_profiles_interpolation p.height L) p.ratios, rfl, ?_⟩
  rw [applyWeights_sum _ _ _ _ hlen (fun i hi =>
    weights_col_sum p.height L hchain hLchain hpos hLpos hLne hi), hsum]

/-- C1 witness: a concrete valid profile resampled onto a scale whose
outermost edge lies below the profile's (L = [50]) and onto one lying above
(L = [200]); both output rows sum to 1. -/
theorem resample_conserves_mass_witness :
    (∃ row, (resample_vertical_profiles [VerticalProfile.toBatch ⟨[2/5, 3/5], [20, 90]⟩]
        (some [50])).ratios = [row] ∧ row.sum = 1) ∧
    (∃ row, (resample_vertical_profiles [VerticalProfile.toBatch ⟨[2/5, 3/5], [20, 90]⟩]
        (some [200])).ratios = [row] ∧ row.sum = 1) := by
  constructor
  · apply resample_conserves_mass
    · rw [check_valid_iff]
      refine ⟨?_, ?_, ?_, ?_, ?_⟩ <;> norm_num [List.chain'_cons]
    · refine ⟨?_, ?_, ?_⟩ <;> norm_num
  · apply resample_conserves_mass
    · rw [check_valid_iff]
      refine ⟨?_, ?_, ?_, ?_, ?_⟩ <;> norm_num [List.chain'_cons]
    · refine ⟨?_, ?_, ?_⟩ <;> norm_num

/-- C2: when every input batch satisfies the validator invariants and any
explicitly supplied target levels are valid height levels, the batch returned
by `resample_vertical_profiles` satisfies all validator invariants. -/
theorem resample_preserves_validator_invariants (profiles : List VerticalProfiles)
    (specified_levels : Option (List ℚ)) (hne : profiles ≠ [])
    (hv : ∀ p ∈ profiles, check_valid_vertical_profiles p = true)
    (hs : ∀ l, specified_levels = some l → ValidLevels l) :
    check_valid_vertical_profiles
      (resample_vertical_profiles profiles specified_levels) = true := by
  rw [check_valids_iff]
  exact resample_valid profiles specified_levels
    (fun p hp => check_valids_iff.mp (hv p hp)) hs

/-- C2 witness: a concrete valid batch resampled onto explicitly supplied
valid levels passes the validator. -/
theorem resample_preserves_validator_invariants_witness :
    check_valid_vertical_profiles
      (resample_vertical_profiles [⟨[[2/5, 3/5]], [20, 90]⟩] (some [50, 90])) = true := by
  apply resample_preserves_validator_invariants
  · simp
  · intro p hp
    rw [List.mem_singleton] at hp
    subst hp
    rw [check_valids_iff]
    refine ⟨?_, ?_, ?_, ?_, ?_⟩ <;> norm_num [List.chain'_cons]
  · intro l hl
    cases hl
    refine ⟨by simp, ?_, ?_⟩ <;> norm_num [List.chain'_cons]

/-- C3: if the sweep's `to` cursor reaches `n` while `from` bins remain, the
tail loop adds to cell `(n-1, i)` of row `n-1` exactly the mass of bin `i`
lying beyond the last `to` boundary, for every remaining column `i`; if
instead the `from` cursor reaches `m` first, every `to` row beyond the final
cursor position holds `0` in the raw matrix and receives zero weight in every
column. -/
theorem sweep_tail_rule_and_zero_rows (fp tp : List ℚ)
    (hf : fp.Chain' (· < ·)) (ht : tp.Chain' (· < ·))
    (hfpos : ∀ x ∈ fp, 0 < x) (htpos : ∀ x ∈ tp, 0 < x) :
    ((loopResult fp tp).j = tp.length → (loopResult fp tp).i < fp.length →
      ∀ i', (loopResult fp tp).i ≤ i' → i' < fp.length →
        rawDiff fp tp (tp.length - 1) i'
          = (loopResult fp tp).diff (tp.length - 1) i'
            + (binHi fp i' - max (binLo fp i') (binLo tp tp.length))) ∧
    ((loopResult fp tp).i = fp.length → (loopResult fp tp).j < tp.length →
      ∀ j' i', (loopResult fp tp).j < j' → j' < tp.length → i' < fp.length →
        rawDiff fp tp j' i' = 0 ∧
        get_weights_profiles_interpolation fp tp j' i' = 0) := by
  obtain ⟨hinv, hexit⟩ := loopResult_spec fp tp hf ht hfpos htpos
  obtain ⟨h1, h2, h3, h4, h5, h6, h7, h8, h9⟩ := hinv
  constructor
  · intro hjn hsim i' hge hi'
    unfold rawDiff
    rw [if_pos hjn]
    have H := tailLoop_spec fp hf hfpos (tp.length - 1) fp.length (loopResult fp tp)
      (by omega) (by rw [h3]; exact le_max_left _ _)
      (fun hsi => by
        rw [h3, hjn]
        exact max_le (le_of_lt (binLo_lt_binHi hf hfpos hsi))
          (by rw [← hjn]; exact h7 hsi))
      (tp.length - 1) i'
    rw [H, if_pos ⟨rfl, hge, hi'⟩]
    have hlast : (loopResult fp tp).last = binLo tp tp.length := by
      rw [h3, hjn]
      exact max_eq_right (h8 hjn)
    rw [hlast]
  · intro him hjlt j' i' hgt hj' hi'
    have hzero : rawDiff fp tp j' i' = 0 := by
      unfold rawDiff
      rw [if_neg (by omega)]
      rw [h4 j' i' hj' hi' (Or.inr (by omega))]
      unfold ovP
      apply ov_eq_zero
      have hcov : binHi fp i' ≤ binLo tp j' := by
        rw [show j' = (j' - 1) + 1 from by omega, binLo_succ]
        calc binHi fp i' ≤ binHi fp (fp.length - 1) := binHi_le_last hf hi'
          _ ≤ binHi tp (loopResult fp tp).j := h9 him hjlt
          _ ≤ binHi tp (j' - 1) := binHi_mono ht (by omega) (by omega)
      calc min (binHi tp j') (binHi fp i') ≤ binHi fp i' := min_le_right _ _
        _ ≤ binLo tp j' := hcov
        _ ≤ max (binLo tp j') (binLo fp i') := le_max_left _ _
    refine ⟨hzero, ?_⟩
    unfold get_weights_profiles_interpolation
    rw [hzero, zero_div]

/-- C3 witness: concrete valid scales (the tail case is exercised by
`fp = [20, 90]`, `tp = [50]`). -/
theorem sweep_tail_rule_and_zero_rows_witness :
    ((loopResult [20, 90] [50]).j = 1 → (loopResult [20, 90] [50]).i < 2 →
      ∀ i', (loopResult [20, 90] [50]).i ≤ i' → i' < 2 →
        rawDiff [20, 90] [50] 0 i'
          = (loopResult [20, 90] [50]).diff 0 i'
            + (binHi [20, 90] i' - max (binLo [20, 90] i') (binLo [50] 1))) ∧
    ((loopResult [20, 90] [50]).i = 2 → (loopResult [20, 90] [50]).j < 1 →
      ∀ j' i', (loopResult [20, 90] [50]).j < j' → j' < 1 → i' < 2 →
        rawDiff [20, 90] [50] j' i' = 0 ∧
        get_weights_profiles_interpolation [20, 90] [50] j' i' = 0) :=
  sweep_tail_rule_and_zero_rows [20, 90] [50]
    (by norm_num [List.chain'_cons]) (by norm_num [List.chain'_cons])
    (by norm_num) (by norm_num)

/-- C4: the concrete scenario `from_levels = [20, 90]`, `ratios = [0.4, 0.6]`,
`to_levels = [50, 90]`: the raw matrix has rows `[20, 30]` and `[0, 40]` (the
tie `f = t = 90` taking the `f ≤ t` branch), column 0's whole weight goes to
the `to = 50` row, and the resampled ratios sum to `1`. -/
theorem concrete_overlap_scenario :
    rawDiff [20, 90] [50, 90] 0 0 = 20 ∧ rawDiff [20, 90] [50, 90] 0 1 = 30 ∧
    rawDiff [20, 90] [50, 90] 1 0 = 0 ∧ rawDiff [20, 90] [50, 90] 1 1 = 40 ∧
    get_weights_profiles_interpolation [20, 90] [50, 90] 0 0 = 1 ∧
    get_weights_profiles_interpolation [20, 90] [50, 90] 1 0 = 0 ∧
    (resample_vertical_profiles [⟨[[2/5, 3/5]], [20, 90]⟩] (some [50, 90])).ratios
      = [[23/35, 12/35]] ∧
    ([(23:ℚ)/35, 12/35].sum = 1) := by
  refine ⟨?_, ?_, ?_, ?_, ?_, ?_, ?_, ?_⟩ <;>
    norm_num [resample_vertical_profiles, applyWeights, get_weights_profiles_interpolation,
      rawDiff, loopResult, mainLoop, tailLoop, initSt, Finset.sum_range_succ, List.range_succ]

/-- C5: resampling a valid profile onto its own height levels returns the
original ratios exactly. -/
theorem resample_identity_on_own_levels (p : VerticalProfile)
    (hp : check_valid_vertical_profile p = true) :
    (resample_vertical_profiles [p.toBatch] (some p.height)).ratios = [p.ratios] := by
  obtain ⟨hpos, hchain, hsum, hlen, hnn⟩ := check_valid_iff.mp hp
  show [applyWeights p.height.length p.height.length
    (get_weights_profiles_interpolation p.height p.height) p.ratios] = [p.ratios]
  rw [applyWeights_delta p.ratios p.height.length hlen _
    (fun j i hj hi => weights_self p.height hchain hpos hj hi)]

/-- C5 witness: identity resampling of a concrete valid profile. -/
theorem resample_identity_on_own_levels_witness :
    (resample_vertical_profiles [VerticalProfile.toBatch ⟨[2/5, 3/5], [20, 90]⟩]
      (some [20, 90])).ratios = [[2/5, 3/5]] :=
  resample_identity_on_own_levels ⟨[2/5, 3/5], [20, 90]⟩ (by
    rw [check_valid_iff]
    refine ⟨?_, ?_, ?_, ?_, ?_⟩ <;> norm_num [List.chain'_cons])

/-- C10: for every pair of non-empty positive strictly increasing scales,
each column `i` of the raw matrix sums to the width of `from`-bin `i`, which
is strictly positive (so the normalization never divides by zero), all
entries are non-negative, and each column of the normalized weight matrix
sums to `1`. -/
theorem raw_matrix_columns_sum_to_bin_widths (fp tp : List ℚ)
    (hf : fp.Chain' (· < ·)) (ht : tp.Chain' (· < ·))
    (hfpos : ∀ x ∈ fp, 0 < x) (htpos : ∀ x ∈ tp, 0 < x)
    (hm : fp ≠ []) (hn : tp ≠ []) :
    ∀ i, i < fp.length →
      (∑ j ∈ Finset.range tp.length, rawDiff fp tp j i = binHi fp i - binLo fp i) ∧
      0 < binHi fp i - binLo fp i ∧
      (∀ j, j < tp.length → 0 ≤ rawDiff fp tp j i) ∧
      ∑ j ∈ Finset.range tp.length, get_weights_profiles_interpolation fp tp j i = 1 := by
  intro i hi
  exact ⟨sum_rawDiff_col fp tp hf ht hfpos htpos hn hi,
    col_width_pos fp hf hfpos hi,
    fun j hj => rawDiff_nonneg fp tp hf ht hfpos htpos hj hi,
    weights_col_sum fp tp hf ht hfpos htpos hn hi⟩

/-- C10 witness: the column-sum facts at the concrete scales of the spec's
scenario. -/
theorem raw_matrix_columns_sum_to_bin_widths_witness :
    (∑ j ∈ Finset.range 2, rawDiff [20, 90] [50, 90] j 0 = binHi [20, 90] 0 - binLo [20, 90] 0) ∧
    0 < binHi [20, 90] 0 - binLo [20, 90] 0 ∧
    (∀ j, j < 2 → 0 ≤ rawDiff [20, 90] [50, 90] j 0) ∧
    ∑ j ∈ Finset.range 2, get_weights_profiles_interpolation [20, 90] [50, 90] j 0 = 1 :=
  raw_matrix_columns_sum_to_bin_widths [20, 90] [50, 90]
    (by norm_num [List.chain'_cons]) (by norm_num [List.chain'_cons])
    (by norm_num) (by norm_num) (by simp) (by simp) 0 (by norm_num)

/-- C6: for a valid profile on levels `A` and a valid level set `B` containing
every boundary of `A` (a refinement superset), resampling from `A` to `B` and
then back to `A` reproduces the original ratios exactly. -/
theorem resample_refinement_roundtrip (p : VerticalProfile) (B : List ℚ)
    (hp : check_valid_vertical_profile p = true)
    (hBpos : ∀ x ∈ B, 0 < x) (hBchain : B.Chain' (· < ·))
    (hAB : ∀ x ∈ p.height, x ∈ B) :
    (resample_vertical_profiles
      [resample_vertical_profiles [p.toBatch] (some B)] (some p.height)).ratios
      = [p.ratios] := by
  obtain ⟨hpos, hchain, hsum, hlen, hnn⟩ := check_valid_iff.mp hp
  obtain ⟨hrne, hhne⟩ := valid_profile_ne_nil ⟨hpos, hchain, hsum, hlen, hnn⟩
  show [applyWeights p.height.length B.length
      (get_weights_profiles_interpolation B p.height)
      (applyWeights B.length p.height.length
        (get_weights_profiles_interpolation p.height B) p.ratios)] = [p.ratios]
  congr 1
  apply List.ext_getElem
  · rw [applyWeights_length]
    exact hlen.symm
  · intro a h1 h2
    have ha : a < p.height.length := by
      rwa [applyWeights_length] at h1
    rw [← List.getD_eq_getElem _ 0 h1, ← List.getD_eq_getElem p.ratios 0 h2]
    rw [applyWeights_getD _ _ _ _ ha]
    have hrow1 : ∀ k ∈ Finset.range B.length,
        (applyWeights B.length p.height.length
          (get_weights_profiles_interpolation p.height B) p.ratios).getD k 0
          * get_weights_profiles_interpolation B p.height a k
        = ∑ i' ∈ Finset.range p.height.length,
            p.ratios.getD i' 0 * get_weights_profiles_interpolation p.height B k i'
              * get_weights_profiles_interpolation B p.height a k := by
      intro k hk
      rw [applyWeights_getD _ _ _ _ (Finset.mem_range.mp hk), Finset.sum_mul]
    rw [Finset.sum_congr rfl hrow1, Finset.sum_comm]
    have hdelta : ∀ i' ∈ Finset.range p.height.length,
        (∑ k ∈ Finset.range B.length,
          p.ratios.getD i' 0 * get_weights_profiles_interpolation p.height B k i'
            * get_weights_profiles_interpolation B p.height a k)
        = p.ratios.getD i' 0 * (if a = i' then 1 else 0) := by
      intro i' hi'
      rw [← weights_comp_delta p.height B hchain hpos hBchain hBpos hAB hhne ha
        (Finset.mem_range.mp hi'), Finset.mul_sum]
      refine Finset.sum_congr rfl fun k hk => ?_
      ring
    rw [Finset.sum_congr rfl hdelta]
    have hite : ∀ i' ∈ Finset.range p.height.length,
        p.ratios.getD i' 0 * (if a = i' then 1 else 0)
        = if i' = a then p.ratios.getD i' 0 else 0 := by
      intro i' _
      by_cases h : a = i'
      · rw [if_pos h, if_pos h.symm, mul_one]
      · rw [if_neg h, if_neg (fun hh => h hh.symm), mul_zero]
    rw [Finset.sum_congr rfl hite,
      Finset.sum_ite_eq' (Finset.range p.height.length) a (fun i' => p.ratios.getD i' 0),
      if_pos (Finset.mem_range.mpr ha)]

/-- C6 witness: round trip of a concrete valid profile through the refining
scale `[20, 50, 90, 120]`. -/
theorem resample_refinement_roundtrip_witness :
    (resample_vertical_profiles
      [resample_vertical_profiles [VerticalProfile.toBatch ⟨[2/5, 3/5], [20, 90]⟩]
        (some [20, 50, 90, 120])] (some [20, 90])).ratios = [[2/5, 3/5]] :=
  resample_refinement_roundtrip ⟨[2/5, 3/5], [20, 90]⟩ [20, 50, 90, 120]
    (by rw [check_valid_iff]; refine ⟨?_, ?_, ?_, ?_, ?_⟩ <;> norm_num [List.chain'_cons])
    (by norm_num) (by norm_num [List.chain'_cons]) (by norm_num)

/-- C7: with no specified levels the output height levels are the sorted set
of the distinct height values of all inputs; in particular two profiles with
levels `[20, 90]` and `[50, 100]` yield output levels `[20, 50, 90, 100]`. -/
theorem resample_default_levels_union :
    (∀ profiles : List VerticalProfiles, profiles ≠ [] →
      (resample_vertical_profiles profiles none).height.Chain' (· < ·) ∧
      ∀ x, x ∈ (resample_vertical_profiles profiles none).height ↔
        ∃ p ∈ profiles, x ∈ p.height) ∧
    (resample_vertical_profiles
      [⟨[[1/2, 1/2]], [20, 90]⟩, ⟨[[1/2, 1/2]], [50, 100]⟩] none).height
      = [20, 50, 90, 100] := by
  constructor
  · intro profiles hne
    refine ⟨npUnique_chain _, fun x => ?_⟩
    show x ∈ npUnique (profiles.flatMap fun p => p.height) ↔ _
    rw [npUnique_mem, List.mem_flatMap]
  · show npUnique [20, 90, 50, 100] = [20, 50, 90, 100]
    unfold npUnique
    have hfs : ([20, 90, 50, 100] : List ℚ).toFinset
        = ([20, 50, 90, 100] : List ℚ).toFinset := by
      ext x
      simp only [List.mem_toFinset, List.mem_cons, List.not_mem_nil, or_false]
      tauto
    rw [hfs]
    exact (List.toFinset_sort _ (by norm_num [List.nodup_cons])).mpr
      (by norm_num [List.sorted_cons])

/-- C7 witness: the general union statement applied to the concrete pair of
profiles with disjoint level sets. -/
theorem resample_default_levels_union_witness :
    (resample_vertical_profiles
      [⟨[[1/2, 1/2]], [20, 90]⟩, ⟨[[1/2, 1/2]], [50, 100]⟩] none).height.Chain' (· < ·) ∧
    ∀ x, x ∈ (resample_vertical_profiles
        [⟨[[1/2, 1/2]], [20, 90]⟩, ⟨[[1/2, 1/2]], [50, 100]⟩] none).height ↔
      ∃ p ∈ ([⟨[[1/2, 1/2]], [20, 90]⟩, ⟨[[1/2, 1/2]], [50, 100]⟩] :
        List VerticalProfiles), x ∈ p.height :=
  resample_default_levels_union.1
    [⟨[[1/2, 1/2]], [20, 90]⟩, ⟨[[1/2, 1/2]], [50, 100]⟩] (by simp)

/-- C8: adding two batches with identical height levels concatenates their
rows, left operand first, with profile counts adding up; adding two batches
with different height levels fails (returns no result). -/
theorem batch_add_concat_or_fail (a b : VerticalProfiles) :
    (a.height = b.height → ∃ c, VerticalProfiles.add a b = some c ∧
      c.ratios = a.ratios ++ b.ratios ∧ c.height = a.height ∧
      c.n_profiles = a.n_profiles + b.n_profiles) ∧
    (a.height ≠ b.height → VerticalProfiles.add a b = none) := by
  constructor
  · intro h
    refine ⟨⟨a.ratios ++ b.ratios, a.height⟩, ?_, rfl, rfl, ?_⟩
    · unfold VerticalProfiles.add
      rw [if_pos h]
    · exact List.length_append _ _
  · intro h
    unfold VerticalProfiles.add
    rw [if_neg h]

/-- C8 witness: a 3-row batch plus a 2-row batch on the same levels gives a
5-row batch with the left operand's rows first; mismatched levels fail. -/
theorem batch_add_concat_or_fail_witness :
    (∃ c, VerticalProfiles.add ⟨[[1], [1], [1]], [10]⟩ ⟨[[1], [1]], [10]⟩ = some c ∧
      c.ratios = [[1], [1], [1], [1], [1]] ∧ c.height = [10] ∧ c.n_profiles = 5) ∧
    VerticalProfiles.add ⟨[[1]], [10]⟩ ⟨[[1]], [20]⟩ = none := by
  constructor
  · obtain ⟨c, hc1, hc2, hc3, hc4⟩ :=
      (batch_add_concat_or_fail ⟨[[1], [1], [1]], [10]⟩ ⟨[[1], [1]], [10]⟩).1 rfl
    exact ⟨c, hc1, by rw [hc2]; rfl, hc3, by rw [hc4]; rfl⟩
  · exact (batch_add_concat_or_fail _ _).2 (by norm_num)

/-- C9: the validator accepts exactly the profiles satisfying all invariants;
in particular it rejects ratios `[0.5, 0.6]` (sum not 1) and heights
`[10, 5]` (not increasing). -/
theorem validator_accepts_iff_invariants :
    (∀ p : VerticalProfile, check_valid_vertical_profile p = true ↔
      ((∀ x ∈ p.height, 0 < x) ∧ p.height.Chain' (· < ·) ∧ p.ratios.sum = 1 ∧
        p.ratios.length = p.height.length ∧ ∀ x ∈ p.ratios, 0 ≤ x)) ∧
    check_valid_vertical_profile ⟨[1/2, 3/5], [10, 20]⟩ = false ∧
    check_valid_vertical_profile ⟨[1/2, 1/2], [10, 5]⟩ = false := by
  refine ⟨fun p => check_valid_iff, ?_, ?_⟩
  · rw [Bool.eq_false_iff]
    intro hc
    obtain ⟨_, _, hsum, _, _⟩ := check_valid_iff.mp hc
    norm_num at hsum
  · rw [Bool.eq_false_iff]
    intro hc
    obtain ⟨_, hchain, _, _, _⟩ := check_valid_iff.mp hc
    norm_num [List.chain'_cons] at hchain

end Emiproc
